import Mathlib

/-!
# Verification of the speaker-compensation FIR filter core

Shallow embedding of `src/fir.c` and the filter-selection logic of
`src/main.c`.  Samples and coefficients are embedded as rationals (the C
code uses `float`; the arithmetic claims under study are about the exact
values computed, and the one floating-point-specific claim is settled as
an exact-reassociation statement).  The delay-line buffer is embedded as a
total function `ℤ → ℚ` so that the pointer arithmetic of the C code
(`buffer + index - order - count`, mirror pointer `write - 2*order`) can be
translated literally, with out-of-bounds offsets visible as integers
outside `[0, size)`.
-/

namespace SpeakerComp

/-- `struct fir_filter` from `src/fir.h`: sample rate, coefficient array and
order.  The coefficient array is embedded as the list of floats the
`coeffs` pointer points to. -/
structure fir_filter where
  rate : ℤ
  coeffs : List ℚ
  order : ℕ
  deriving Repr, DecidableEq

/-- `struct delay_line` from `src/fir.h`: sample buffer, its size and the
write cursor.  The buffer is a total function on `ℤ` (the C buffer pointer
plus an arbitrary offset); slots outside `[0, size)` model out-of-bounds
memory. -/
structure delay_line where
  buffer : ℤ → ℚ
  size : ℤ
  index : ℤ

/-- Single store `buffer[a] = v`, i.e. `*(p + a) = v` in the C code. -/
def writeAt (f : ℤ → ℚ) (a : ℤ) (v : ℚ) : ℤ → ℚ :=
  fun x => if x = a then v else f x

/-- `delay_line_init` from `src/fir.c` (lines 169-192): rejects a zero
size, otherwise returns a `calloc`-zeroed buffer with the write cursor at
`size - 1`.  Allocation success is assumed (allocation failure returns
NULL, which the claims under study do not exercise). -/
def delay_line_init (size : ℕ) : Option delay_line :=
  if size = 0 then none
  else some { buffer := fun _ => 0, size := (size : ℤ), index := (size : ℤ) - 1 }

/-- The loop of `delay_line_append_samples` (`src/fir.c` lines 112-123),
translated literally: each sample is stored through the primary pointer
`w` and the mirror pointer `m`, both advance, and when the primary pointer
reaches `buffer + size` it jumps back to the mirror position while the
mirror restarts at the buffer base.  Returns the new buffer, the final
primary and mirror pointers, and the list of every offset stored to (for
the bounds-safety claims). -/
def appendLoop (size : ℤ) : List ℚ → (ℤ → ℚ) → ℤ → ℤ → (ℤ → ℚ) × ℤ × ℤ × List ℤ
  | [], buf, w, m => (buf, w, m, [])
  | s :: rest, buf, w, m =>
    let buf' := writeAt (writeAt buf w s) m s
    let w' := w + 1
    let m' := m + 1
    if w' = size then
      let r := appendLoop size rest buf' m' 0
      (r.1, r.2.1, r.2.2.1, w :: m :: r.2.2.2)
    else
      let r := appendLoop size rest buf' w' m'
      (r.1, r.2.1, r.2.2.1, w :: m :: r.2.2.2)

/-- `delay_line_append_samples` from `src/fir.c` (lines 102-126), for
non-null arguments: the primary pointer starts at `buffer + index`, the
mirror pointer at `buffer + index - 2*order`; afterwards `index` is the
final primary pointer.  (The C argument guard is modelled separately by
`delay_line_append_samples_c`.) -/
def delay_line_append_samples (f : fir_filter) (dl : delay_line) (samples : List ℚ) :
    delay_line :=
  let r := appendLoop dl.size samples dl.buffer dl.index (dl.index - 2 * (f.order : ℤ))
  { dl with buffer := r.1, index := r.2.1 }

/-- The offsets (relative to the buffer base) written by one
`delay_line_append_samples` call, combining the primary and mirror stores
in program order. -/
def append_write_offsets (f : fir_filter) (dl : delay_line) (samples : List ℚ) : List ℤ :=
  (appendLoop dl.size samples dl.buffer dl.index (dl.index - 2 * (f.order : ℤ))).2.2.2

/-- `fir_filter_apply_scalar` from `src/fir.c` (lines 13-22): for each
output index `i < count` the inner loop accumulates
`sum += coeff[j] * samples[i + j]` for `j = 0, …, len-1` (note: `len`
terms, the loop condition is `j < len`).  `samples` is a pointer into the
delay-line buffer, so it is indexed over `ℤ`. -/
def fir_filter_apply_scalar (len : ℕ) (coeff : ℕ → ℚ) (count : ℕ) (samples : ℤ → ℚ) :
    List ℚ :=
  (List.range count).map fun (i : ℕ) =>
    (List.range len).foldl (fun sum j => sum + coeff j * samples ((i : ℤ) + (j : ℤ))) 0

/-- `fir_filter_apply` from `src/fir.c` (lines 87-100), for non-null
arguments and positive count: the sample window starts at
`buffer + index - order - count`, and the scalar kernel is invoked with
`len = filter->order`.  (Under `__AVX512F__` the accelerated kernel is
called instead; `fir_filter_apply_avx512_eq_scalar` below shows the two
kernels compute identical values, so this definition covers both builds.)
The C argument guard is modelled separately by `fir_filter_apply_c`. -/
def fir_filter_apply (f : fir_filter) (dl : delay_line) (count : ℕ) : List ℚ :=
  fir_filter_apply_scalar f.order (fun j => f.coeffs.getD j 0) count
    (fun k => dl.buffer (dl.index - (f.order : ℤ) - (count : ℤ) + k))

/-- `fir_filter_clone` from `src/fir.c` (lines 135-160), successful-allocation
path: the clone keeps `order` and `rate` and deep-copies the coefficient
storage.  Note the source copies `sizeof(float) * filter->order` bytes,
i.e. the first `order` array elements. -/
def fir_filter_clone (f : fir_filter) : fir_filter :=
  { rate := f.rate, coeffs := f.coeffs.take f.order, order := f.order }

/-- The per-channel body of `on_filter_process` (`src/main.c` lines
189-197) once buffers are valid: append the input block to the delay line,
then run the convolution over the updated line with `count` equal to the
block length.  Returns the updated delay line and the output block. -/
def process_quantum (f : fir_filter) (dl : delay_line) (input : List ℚ) :
    delay_line × List ℚ :=
  let dl' := delay_line_append_samples f dl input
  (dl', fir_filter_apply f dl' input.length)

/-! ## C1: the concrete impulse scenario

Table entry of the scenario: rate 48000, order 3, coefficients
`[0.1, 0.2, 0.3, 0.4]`.  The channel's delay line is sized as in
`init_fir_filters` (`src/main.c` line 70): `MAX_FILTER_ORDER * 4 = 65532`,
zero-filled, cursor at `size - 1`. -/

/-- The scenario filter: order 3, coefficients `[0.1, 0.2, 0.3, 0.4]`. -/
def scenario_filter : fir_filter :=
  { rate := 48000, coeffs := [1/10, 2/10, 3/10, 4/10], order := 3 }

/-- The freshly initialized scenario delay line (size `16383 * 4`,
zero-filled, `index = size - 1`), as produced by `delay_line_init`. -/
def scenario_dl0 : delay_line :=
  { buffer := fun _ => 0, size := 65532, index := 65531 }

/-- Feed a list of one-sample blocks through `append` + `apply`, collecting
the single output sample of each block. -/
def run_blocks (f : fir_filter) : delay_line → List (List ℚ) → List ℚ
  | _, [] => []
  | dl, b :: rest =>
    let r := process_quantum f dl b
    r.2 ++ run_blocks f r.1 rest

/-- Outputs of the four successive one-sample blocks `[1], [0], [0], [0]`
of the C1 scenario. -/
def scenario_outputs : List ℚ :=
  run_blocks scenario_filter scenario_dl0 [[1], [0], [0], [0]]

/-! ## C2: the spec's convolution formula -/

/-- The output formula asserted by the spec for `fir_filter_apply`
(spec §4.2): `output[i] = Σ_{j=0}^{order} coeff[j] * window[i+j]` — an
`order+1`-term sum — with `window = buffer + cursor - order - count`.
Stated from the spec's words, to be compared with the source-derived
`fir_filter_apply`. -/
def spec_apply_formula (f : fir_filter) (dl : delay_line) (count : ℕ) : List ℚ :=
  (List.range count).map fun (i : ℕ) =>
    ∑ j ∈ Finset.range (f.order + 1),
      f.coeffs.getD j 0 * dl.buffer (dl.index - (f.order : ℤ) - (count : ℤ) + (i : ℤ) + (j : ℤ))

/-- Concrete filter for checking the C2 formula: order 1, both stored
coefficients equal to 1. -/
def c2_filter : fir_filter := { rate := 48000, coeffs := [1, 1], order := 1 }

/-- Concrete delay line for checking the C2 formula: slot 2 holds 5,
slot 3 holds 7, cursor at 4. -/
def c2_dl : delay_line :=
  { buffer := writeAt (writeAt (fun _ => 0) 2 5) 3 7, size := 12, index := 4 }

/-! ## The AVX-512 kernel (`src/fir.c` lines 24-85) -/

/-- `_mm512_reduce_add_ps`: horizontal sum of the 16 lanes of a vector. -/
def reduce_add_ps (v : Fin 16 → ℚ) : ℚ := ∑ l, v l

/-- The accumulator vector of the vectorized inner loop of
`fir_filter_apply_avx512` after `b` iterations, for the output at index
`i`: starting from `_mm512_setzero_ps`, each iteration executes
`sum_vec = _mm512_fmadd_ps(coeff_vec, samples_vec, sum_vec)` with
`coeff_vec = coeff[16*b .. 16*b+15]` and
`samples_vec = samples[i+16*b .. i+16*b+15]`. -/
def avx_acc (coeff : ℕ → ℚ) (samples : ℤ → ℚ) (i : ℕ) : ℕ → Fin 16 → ℚ
  | 0 => fun _ => 0
  | b + 1 => fun l =>
      coeff (16 * b + (l : ℕ)) * samples ((i : ℤ) + ((16 * b + (l : ℕ) : ℕ) : ℤ)) +
        avx_acc coeff samples i b l

/-- The value `fir_filter_apply_avx512` stores into `output[i]`: the
16-lane accumulation over the vectorized prefix `vectorized_len = (len /
16) * 16` of the coefficients, horizontally reduced, followed by the
scalar tail loop `for (j = vectorized_len; j < len; j++)`.  The 4-way
unrolled main loop and the remainder loop perform this same per-output
dataflow (the four `sum_vecN` accumulators of the unrolled body are
independent, one per output index). -/
def avx_output (len : ℕ) (coeff : ℕ → ℚ) (samples : ℤ → ℚ) (i : ℕ) : ℚ :=
  (List.range (len - len / 16 * 16)).foldl
    (fun sum t =>
      sum + coeff (len / 16 * 16 + t) * samples ((i : ℤ) + ((len / 16 * 16 + t : ℕ) : ℤ)))
    (reduce_add_ps (avx_acc coeff samples i (len / 16)))

/-- `fir_filter_apply_avx512` from `src/fir.c` (lines 24-85): the main
loop emits outputs four at a time for `i < vectorized_count = (count / 4)
* 4`, the remainder loop emits the rest one at a time. -/
def fir_filter_apply_avx512 (len : ℕ) (coeff : ℕ → ℚ) (count : ℕ) (samples : ℤ → ℚ) :
    List ℚ :=
  ((List.range (count / 4)).flatMap fun g =>
    [avx_output len coeff samples (4 * g), avx_output len coeff samples (4 * g + 1),
     avx_output len coeff samples (4 * g + 2), avx_output len coeff samples (4 * g + 3)]) ++
  (List.range (count - count / 4 * 4)).map fun t =>
    avx_output len coeff samples (count / 4 * 4 + t)

/-! ## C8: the C argument guards -/

/-- `fir_filter_apply` with its argument guard (`src/fir.c` lines 89-91):
null pointers are `none`, and the guard `!filter || !delay_line || !output
|| count <= 0` returns without storing to the output buffer.  The output
buffer is modelled as the list of floats it holds; a valid call overwrites
its first `count` entries. -/
def fir_filter_apply_c (f? : Option fir_filter) (dl? : Option delay_line) (count : ℤ)
    (output? : Option (List ℚ)) : Option (List ℚ) :=
  match f?, dl?, output? with
  | some f, some dl, some output =>
    if count ≤ 0 then some output
    else some (fir_filter_apply f dl count.toNat ++ output.drop count.toNat)
  | _, _, _ => output?

/-- `delay_line_append_samples` with its argument guard (`src/fir.c` lines
104-106): the guard `!filter || !delay_line || !samples || count <= 0`
returns without modifying the delay line. -/
def delay_line_append_samples_c (f? : Option fir_filter) (dl? : Option delay_line)
    (samples? : Option (List ℚ)) (count : ℤ) : Option delay_line :=
  match f?, dl?, samples? with
  | some f, some dl, some samples =>
    if count ≤ 0 then some dl
    else some (delay_line_append_samples f dl (samples.take count.toNat))
  | _, _, _ => dl?

/-! ## The filter table and per-channel selection (`src/main.c`) -/

/-- The `rate` fields of `FIR_FILTERS` (`src/main.c` lines 340-347). -/
def FIR_RATES : Fin 6 → ℤ := ![44100, 88200, 176400, 48000, 96000, 192000]

/-- The `order` fields of `FIR_FILTERS` (`src/main.c` lines 340-347). -/
def FIR_ORDERS : Fin 6 → ℕ := ![4095, 8191, 16383, 4095, 8191, 16383]

/-- The `FIR_FILTERS` table (`src/main.c` lines 340-347).  The coefficient
arrays `FIR_COEFF_*` are `extern` and their definitions are not part of the
sources under study, so the table is parametrized by them. -/
def FIR_FILTERS (cs : Fin 6 → List ℚ) (i : Fin 6) : fir_filter :=
  { rate := FIR_RATES i, coeffs := cs i, order := FIR_ORDERS i }

/-- `struct channel` from `src/main.c` (lines 19-24), restricted to the
fields the filtering core touches (the two ports are owned by the audio
graph collaborator). -/
structure channel where
  delay_line : SpeakerComp.delay_line
  current : fir_filter

/-- `update_channel_filter` from `src/main.c` (lines 108-132).  The scan
looks for the first exact rate match and attempts to clone it; if there is
no match, or that clone fails, it attempts to clone `FIR_FILTERS[5]`; if
no filter was obtained it returns `-1` without touching the channel,
otherwise it installs the clone (and frees the old filter) and returns
`0`.  Allocation is modelled by the oracle `cloneO`: `fir_filter_clone`
returns NULL exactly when allocation fails. -/
def update_channel_filter (cloneO : fir_filter → Option fir_filter) (cs : Fin 6 → List ℚ)
    (ch : channel) (rate : ℤ) : channel × ℤ :=
  let matched := (List.finRange 6).find? fun i => rate = FIR_RATES i
  let new1 : Option fir_filter := matched.bind fun i => cloneO (FIR_FILTERS cs i)
  let new2 : Option fir_filter :=
    match new1 with
    | some g => some g
    | none => cloneO (FIR_FILTERS cs 5)
  match new2 with
  | none => (ch, -1)
  | some g => ({ ch with current := g }, 0)

/-- The table index `update_channel_filter`'s scan ends up using: the
first exact rate match, else the designated fallback entry `5`. -/
def selected_index (rate : ℤ) : Fin 6 :=
  ((List.finRange 6).find? fun i => rate = FIR_RATES i).getD 5

/-- A concrete channel used to instantiate the channel-level theorems. -/
def demo_channel : channel := { delay_line := c2_dl, current := c2_filter }

/-- Filter with order 1 but two stored coefficients, probing how many
coefficients `fir_filter_clone` copies. -/
def c7_filter : fir_filter := { rate := 44100, coeffs := [1, 2], order := 1 }

/-! ## C3 and C10: delay-line window content and bounds -/

/-- Fold a sequence of `delay_line_append_samples` calls (one per
processing quantum) over the delay line. -/
def append_batches (f : fir_filter) : delay_line → List (List ℚ) → delay_line
  | dl, [] => dl
  | dl, b :: rest => append_batches f (delay_line_append_samples f dl b) rest

/-- The contiguous slice of length `len` ending at the write cursor — for
`len = order + count` this is exactly the window `fir_filter_apply` reads
(it starts at `buffer + index - order - count`). -/
def window_read (dl : delay_line) (len : ℕ) : List ℚ :=
  (List.range len).map fun (k : ℕ) => dl.buffer (dl.index - (len : ℤ) + (k : ℤ))

/-- The last `len` samples an unbounded, non-circular reference buffer
(pre-filled with zeros) would hold after appending `batches` in order. -/
def reference_window (batches : List (List ℚ)) (len : ℕ) : List ℚ :=
  (List.range len).map fun (k : ℕ) =>
    let t : ℤ := (batches.flatten.length : ℤ) - (len : ℤ) + (k : ℤ)
    if t < 0 then 0 else batches.flatten.getD t.toNat 0

/-- Order-2 filter used for the delay-line content check. -/
def c3_filter : fir_filter := { rate := 48000, coeffs := [1, 1], order := 2 }

/-- Freshly initialized delay line of capacity 12 (≥ 4 × order) for the
delay-line content check, as produced by `delay_line_init 12`. -/
def c3_dl0 : delay_line := { buffer := fun _ => 0, size := 12, index := 11 }

/-- `k`-th most recent sample of the unbounded reference stream `past`
(`k = 1` is the newest); `0` when fewer than `k` samples were ever
appended, matching the zero-prefilled reference buffer. -/
def refNth (past : List ℚ) (k : ℕ) : ℚ :=
  if k ≤ past.length then past.getD (past.length - k) 0 else 0

/-- State invariant of the delay line for the exact capacity
`size = 4 * order` used by `init_fir_filters` at the maximum-order rates:
the cursor sits in `[2d, 4d)` (writing `d` for the order), the `2d` slots
behind the cursor hold the most recent `2d` stream samples, and the lower
half of the buffer duplicates the upper half at offset `2d`. -/
def delay_inv (d : ℤ) (past : List ℚ) (buf : ℤ → ℚ) (w : ℤ) : Prop :=
  2 * d ≤ w ∧ w < 4 * d ∧
  (∀ k : ℕ, 1 ≤ k → (k : ℤ) ≤ 2 * d → buf (w - (k : ℤ)) = refNth past k) ∧
  (∀ x : ℤ, 0 ≤ x → x < 2 * d → buf x = buf (x + 2 * d))

/-- Order-1 filter for the cursor-range check. -/
def c10_filter : fir_filter := { rate := 48000, coeffs := [1], order := 1 }

/-- Freshly initialized delay line of capacity 8 (= 8 × order ≥ 4 × Omax
for Omax = 1) for the cursor-range check. -/
def c10_dl : delay_line := { buffer := fun _ => 0, size := 8, index := 7 }

/-! ## Theorems -/

/-- A left fold accumulating `+ g j` over `List.range n` is the starting
value plus the corresponding `Finset.range` sum. -/
theorem foldl_add_range (g : ℕ → ℚ) (x : ℚ) (n : ℕ) :
    (List.range n).foldl (fun s j => s + g j) x = x + ∑ j ∈ Finset.range n, g j := by
  induction n generalizing x with
  | zero => simp
  | succ n ih =>
    rw [List.range_succ, List.foldl_append, ih, Finset.sum_range_succ]
    simp [add_assoc]

/-- C1, counterexample: with the order-3 filter `[0.1, 0.2, 0.3, 0.4]` on a
freshly initialized delay line, the four one-sample blocks `[1], [0], [0],
[0]` do NOT produce the outputs `0.4, 0.3, 0.2, 0.1` claimed by the spec:
the first output is `0` (the window read by `fir_filter_apply` ends one
sample before the newly appended block, and the kernel sums only
`order = 3` coefficients). -/
theorem C1_counterexample : scenario_outputs ≠ [4/10, 3/10, 2/10, 1/10] := by
  norm_num [scenario_outputs, run_blocks, process_quantum, delay_line_append_samples,
    appendLoop, fir_filter_apply, fir_filter_apply_scalar, writeAt, scenario_filter,
    scenario_dl0, List.range_succ]

/-- C1, amended: the four outputs of the impulse scenario are
`0, 0.3, 0.2, 0.1` — lag 0 yields `0`, and lag `k` yields `coeff[order-k]`
for `1 ≤ k ≤ order` (here `order = 3`). -/
theorem C1_impulse_outputs : scenario_outputs = [0, 3/10, 2/10, 1/10] := by
  norm_num [scenario_outputs, run_blocks, process_quantum, delay_line_append_samples,
    appendLoop, fir_filter_apply, fir_filter_apply_scalar, writeAt, scenario_filter,
    scenario_dl0, List.range_succ]

/-- C2, counterexample: `fir_filter_apply` does not compute the spec's
`order+1`-term sum.  With order 1, coefficients `[1, 1]`, window samples
`5` and `7`, the code produces `5` (one term) while the spec formula gives
`12` (two terms). -/
theorem C2_counterexample :
    fir_filter_apply c2_filter c2_dl 1 ≠ spec_apply_formula c2_filter c2_dl 1 := by
  norm_num [fir_filter_apply, fir_filter_apply_scalar, spec_apply_formula, writeAt,
    c2_filter, c2_dl, List.range_succ, Finset.sum_range_succ]

/-- C2, amended: for every filter, delay line and count, output `i` of
`fir_filter_apply` equals the `order`-term sum
`Σ_{j=0}^{order-1} coeff[j] * window[i+j]` over the window starting at
`buffer + index - order - count`; `coeff[0]` multiplies the oldest sample
of that window and `coeff[order-1]` the most recent. -/
theorem C2_apply_is_order_term_sum (f : fir_filter) (dl : delay_line) (count : ℕ) :
    fir_filter_apply f dl count = (List.range count).map fun (i : ℕ) =>
      ∑ j ∈ Finset.range f.order,
        f.coeffs.getD j 0 * dl.buffer (dl.index - (f.order : ℤ) - (count : ℤ) + (i : ℤ) + (j : ℤ)) := by
  unfold fir_filter_apply fir_filter_apply_scalar
  refine List.map_congr_left fun i _ => ?_
  rw [foldl_add_range, zero_add]
  refine Finset.sum_congr rfl fun j _ => ?_
  ring_nf

/-- C4: a filter swap through `update_channel_filter` leaves the channel's
delay line (buffer and write cursor) untouched — on the success and on the
failure path alike — and consequently the first quantum processed after
the swap convolves the newly installed coefficient set with the sample
history accumulated before the swap. -/
theorem C4_swap_preserves_delay_line (cloneO : fir_filter → Option fir_filter)
    (cs : Fin 6 → List ℚ) (ch : channel) (rate : ℤ) (input : List ℚ) :
    ((update_channel_filter cloneO cs ch rate).1).delay_line = ch.delay_line ∧
    process_quantum ((update_channel_filter cloneO cs ch rate).1).current
        ((update_channel_filter cloneO cs ch rate).1).delay_line input =
      process_quantum ((update_channel_filter cloneO cs ch rate).1).current
        ch.delay_line input := by
  have h : ((update_channel_filter cloneO cs ch rate).1).delay_line = ch.delay_line := by
    unfold update_channel_filter
    dsimp only
    split <;> rfl
  exact ⟨h, by rw [h]⟩

/-- C5: when allocation fails during a rate change (both clone attempts
return NULL), `update_channel_filter` reports `-1` and the channel is
completely unchanged — it still holds its previous filter instance and
delay line. -/
theorem C5_clone_failure_keeps_channel (cloneO : fir_filter → Option fir_filter)
    (cs : Fin 6 → List ℚ) (ch : channel) (rate : ℤ)
    (hfail : ∀ g, cloneO g = none) :
    update_channel_filter cloneO cs ch rate = (ch, -1) := by
  unfold update_channel_filter
  cases h : (List.finRange 6).find? fun i => rate = FIR_RATES i <;>
    simp [h, hfail]

/-- Witness for `C5_clone_failure_keeps_channel` at a concrete channel and
rate, with an always-failing allocator. -/
theorem C5_witness :
    update_channel_filter (fun _ => none) (fun _ => []) demo_channel 44100 =
      (demo_channel, -1) :=
  C5_clone_failure_keeps_channel (fun _ => none) (fun _ => []) demo_channel 44100
    (fun _ => rfl)

/-- C6: with allocation succeeding, `update_channel_filter` always reports
success and installs a clone of the table entry selected for the rate: the
first entry whose `rate` field equals the requested rate exactly when one
exists, else the designated maximum-capability fallback `FIR_FILTERS[5]`
(rate 192000, order 16383). -/
theorem C6_select_exact_or_fallback (cloneO : fir_filter → Option fir_filter)
    (cs : Fin 6 → List ℚ) (ch : channel) (rate : ℤ)
    (hO : ∀ g, cloneO g = some (fir_filter_clone g)) :
    update_channel_filter cloneO cs ch rate =
      ({ ch with current := fir_filter_clone (FIR_FILTERS cs (selected_index rate)) }, 0) ∧
    ((∃ i, rate = FIR_RATES i) → (FIR_FILTERS cs (selected_index rate)).rate = rate) ∧
    (¬ (∃ i, rate = FIR_RATES i) →
      selected_index rate = 5 ∧ (FIR_FILTERS cs 5).rate = 192000 ∧
        (FIR_FILTERS cs 5).order = 16383) := by
  refine ⟨?_, ?_, ?_⟩
  · unfold update_channel_filter selected_index
    cases h : (List.finRange 6).find? fun i => rate = FIR_RATES i <;> simp [h, hO]
  · rintro ⟨i, hi⟩
    unfold selected_index
    cases h : (List.finRange 6).find? fun i => rate = FIR_RATES i with
    | none =>
      have := List.find?_eq_none.mp h i (List.mem_finRange i)
      simp [hi] at this
    | some j =>
      have := List.find?_some h
      simp only [decide_eq_true_eq] at this
      simp [FIR_FILTERS, this]
  · intro hno
    have h : ((List.finRange 6).find? fun i => rate = FIR_RATES i) = none := by
      cases h : (List.finRange 6).find? fun i => rate = FIR_RATES i with
      | none => rfl
      | some j =>
        have := List.find?_some h
        simp only [decide_eq_true_eq] at this
        exact absurd ⟨j, this⟩ hno
    refine ⟨by simp [selected_index, h], rfl, rfl⟩

/-- Witness for `C6_select_exact_or_fallback` with the always-succeeding
allocator, at rate 44100 and a concrete channel. -/
theorem C6_witness :
    update_channel_filter (fun g => some (fir_filter_clone g)) (fun _ => [])
        demo_channel 44100 =
      ({ demo_channel with
          current := fir_filter_clone (FIR_FILTERS (fun _ => []) (selected_index 44100)) },
        0) ∧
    ((∃ i, (44100 : ℤ) = FIR_RATES i) →
      (FIR_FILTERS (fun _ => []) (selected_index 44100)).rate = 44100) ∧
    (¬ (∃ i, (44100 : ℤ) = FIR_RATES i) →
      selected_index 44100 = 5 ∧ (FIR_FILTERS (fun _ => []) 5).rate = 192000 ∧
        (FIR_FILTERS (fun _ => []) 5).order = 16383) :=
  C6_select_exact_or_fallback (fun g => some (fir_filter_clone g)) (fun _ => [])
    demo_channel 44100 (fun _ => rfl)

/-- C7, counterexample: `fir_filter_clone` does not copy `order + 1`
coefficients.  On a filter of order 1 whose coefficient storage holds
`[1, 2]`, the clone's storage holds only the first `order = 1`
coefficients (the C code allocates and copies
`sizeof(float) * filter->order` bytes). -/
theorem C7_counterexample :
    (fir_filter_clone c7_filter).coeffs ≠ c7_filter.coeffs.take (c7_filter.order + 1) := by
  simp [fir_filter_clone, c7_filter]

/-- C7, amended: `fir_filter_clone` preserves `rate` and `order` and
deep-copies exactly the first `order` coefficients of the original; being
a fresh copy, the original's coefficient storage is unaffected by anything
later done to the clone. -/
theorem C7_clone_copies_order_coeffs (f : fir_filter) :
    (fir_filter_clone f).rate = f.rate ∧ (fir_filter_clone f).order = f.order ∧
      (fir_filter_clone f).coeffs = f.coeffs.take f.order := by
  simp [fir_filter_clone]

/-- C8: both entry points are no-ops on invalid arguments: with any null
pointer (`none`) or `count ≤ 0`, `fir_filter_apply` leaves the output
buffer untouched and `delay_line_append_samples` leaves the delay line
untouched. -/
theorem C8_invalid_args_noop (f? : Option fir_filter) (dl? : Option delay_line)
    (count : ℤ) (output? samples? : Option (List ℚ))
    (happly : f? = none ∨ dl? = none ∨ output? = none ∨ count ≤ 0)
    (happend : f? = none ∨ dl? = none ∨ samples? = none ∨ count ≤ 0) :
    fir_filter_apply_c f? dl? count output? = output? ∧
    delay_line_append_samples_c f? dl? samples? count = dl? := by
  constructor
  · rcases f? with _ | f <;> rcases dl? with _ | dl <;> rcases output? with _ | output <;>
      simp_all [fir_filter_apply_c]
  · rcases f? with _ | f <;> rcases dl? with _ | dl <;> rcases samples? with _ | samples <;>
      simp_all [delay_line_append_samples_c]

/-- Witness for `C8_invalid_args_noop`: non-null filter, delay line and
buffers but `count = 0` — nothing is written and nothing is appended. -/
theorem C8_witness :
    fir_filter_apply_c (some c2_filter) (some c2_dl) 0 (some [9]) = some [9] ∧
    delay_line_append_samples_c (some c2_filter) (some c2_dl) (some [9]) 0 =
      some c2_dl :=
  C8_invalid_args_noop (some c2_filter) (some c2_dl) 0 (some [9]) (some [9])
    (Or.inr (Or.inr (Or.inr le_rfl))) (Or.inr (Or.inr (Or.inr le_rfl)))

/-- Splitting a `Finset.range` sum at `m`. -/
theorem sum_range_add (f : ℕ → ℚ) (m n : ℕ) :
    ∑ j ∈ Finset.range (m + n), f j =
      (∑ j ∈ Finset.range m, f j) + ∑ j ∈ Finset.range n, f (m + j) := by
  induction n with
  | zero => simp
  | succ n ih =>
    rw [Nat.add_succ, Finset.sum_range_succ, Finset.sum_range_succ, ih, add_assoc]

/-- Lane `l` of the AVX accumulator after `b` blocks is the sum of its
strided coefficient-sample products. -/
theorem avx_acc_lane (coeff : ℕ → ℚ) (samples : ℤ → ℚ) (i : ℕ) (b : ℕ) (l : Fin 16) :
    avx_acc coeff samples i b l =
      ∑ k ∈ Finset.range b,
        coeff (16 * k + (l : ℕ)) * samples ((i : ℤ) + ((16 * k + (l : ℕ) : ℕ) : ℤ)) := by
  induction b with
  | zero => simp [avx_acc]
  | succ b ih =>
    rw [avx_acc]
    dsimp only
    rw [Finset.sum_range_succ, ih, add_comm]

/-- Reducing the AVX accumulator over `b` blocks gives the plain sum of
the first `16*b` coefficient-sample products. -/
theorem reduce_avx_acc (coeff : ℕ → ℚ) (samples : ℤ → ℚ) (i : ℕ) (b : ℕ) :
    reduce_add_ps (avx_acc coeff samples i b) =
      ∑ j ∈ Finset.range (16 * b),
        coeff j * samples ((i : ℤ) + (j : ℤ)) := by
  induction b with
  | zero => simp [reduce_add_ps, avx_acc]
  | succ b ih =>
    have hsplit :
        ∑ j ∈ Finset.range (16 * b + 16), coeff j * samples ((i : ℤ) + (j : ℤ)) =
          (∑ j ∈ Finset.range (16 * b), coeff j * samples ((i : ℤ) + (j : ℤ))) +
            ∑ j ∈ Finset.range 16,
              coeff (16 * b + j) * samples ((i : ℤ) + ((16 * b + j : ℕ) : ℤ)) :=
      sum_range_add _ (16 * b) 16
    have hstep : ∀ l : Fin 16, avx_acc coeff samples i (b + 1) l =
        avx_acc coeff samples i b l +
          coeff (16 * b + (l : ℕ)) * samples ((i : ℤ) + ((16 * b + (l : ℕ) : ℕ) : ℤ)) := by
      intro l
      rw [avx_acc]
      dsimp only
      rw [add_comm]
    have h1 : reduce_add_ps (avx_acc coeff samples i (b + 1)) =
        reduce_add_ps (avx_acc coeff samples i b) +
          ∑ j ∈ Finset.range 16,
            coeff (16 * b + j) * samples ((i : ℤ) + ((16 * b + j : ℕ) : ℤ)) := by
      unfold reduce_add_ps
      rw [Finset.sum_congr rfl fun l _ => hstep l, Finset.sum_add_distrib,
        Fin.sum_univ_eq_sum_range
          (fun j => coeff (16 * b + j) * samples ((i : ℤ) + ((16 * b + j : ℕ) : ℤ))) 16]
    rw [Nat.mul_succ, hsplit, h1, ih]

/-- Each AVX output value equals the full `len`-term dot product. -/
theorem avx_output_eq (len : ℕ) (coeff : ℕ → ℚ) (samples : ℤ → ℚ) (i : ℕ) :
    avx_output len coeff samples i =
      ∑ j ∈ Finset.range len, coeff j * samples ((i : ℤ) + (j : ℤ)) := by
  unfold avx_output
  rw [foldl_add_range, reduce_avx_acc]
  have h16 : 16 * (len / 16) = len / 16 * 16 := Nat.mul_comm _ _
  have h2 : len / 16 * 16 + (len - len / 16 * 16) = len := by
    have := Nat.div_mul_le_self len 16
    omega
  rw [h16, ← sum_range_add (fun j => coeff j * samples ((i : ℤ) + (j : ℤ)))
    (len / 16 * 16) (len - len / 16 * 16), h2]

/-- Grouping outputs four at a time: the unrolled loop emits exactly the
outputs `0, …, 4*n - 1` in order. -/
theorem flatMap_four (h : ℕ → ℚ) (n : ℕ) :
    ((List.range n).flatMap fun g => [h (4 * g), h (4 * g + 1), h (4 * g + 2), h (4 * g + 3)]) =
      (List.range (4 * n)).map h := by
  induction n with
  | zero => simp
  | succ n ih =>
    rw [List.range_succ, List.flatMap_append, ih, Nat.mul_succ]
    rw [show 4 * n + 4 = (4 * n + 3) + 1 by omega, List.range_succ,
      show 4 * n + 3 = (4 * n + 2) + 1 by omega, List.range_succ,
      show 4 * n + 2 = (4 * n + 1) + 1 by omega, List.range_succ, List.range_succ]
    simp [List.flatMap]

/-- C9: for every length, count, coefficient assignment and sample
assignment, the AVX-512 kernel produces exactly the values of the scalar
reference kernel — over exact (reassociation-insensitive) arithmetic the
batched fused-multiply-add lane reduction plus tail loops compute the same
mathematical sum as the scalar double loop, so the two paths differ at
most by floating-point reassociation. -/
theorem C9_avx512_eq_scalar (len count : ℕ) (coeff : ℕ → ℚ) (samples : ℤ → ℚ) :
    fir_filter_apply_avx512 len coeff count samples =
      fir_filter_apply_scalar len coeff count samples := by
  unfold fir_filter_apply_avx512 fir_filter_apply_scalar
  rw [flatMap_four]
  have hcount : count / 4 * 4 + (count - count / 4 * 4) = count := by
    have := Nat.div_mul_le_self count 4
    omega
  have hrange : List.range count =
      List.range (count / 4 * 4) ++ (List.range (count - count / 4 * 4)).map
        (fun t => count / 4 * 4 + t) := by
    conv_lhs => rw [← hcount]
    exact List.range_add _ _
  rw [hrange, List.map_append, List.map_map]
  congr 1
  · rw [Nat.mul_comm]
    refine List.map_congr_left fun i _ => ?_
    rw [avx_output_eq, foldl_add_range, zero_add]
  · refine List.map_congr_left fun t _ => ?_
    simp only [Function.comp]
    rw [avx_output_eq, foldl_add_range, zero_add]

/-- Every offset stored to by the append loop lies in `[0, size)`,
provided the mirror pointer starts at a nonnegative offset strictly below
the primary pointer and the primary pointer starts below `size`.  (These
three relations are preserved by every loop iteration, wrap included.) -/
theorem appendLoop_writes_bounds (size : ℤ) (samples : List ℚ) :
    ∀ (buf : ℤ → ℚ) (w m : ℤ), 0 ≤ m → m < w → w < size →
      ∀ x ∈ (appendLoop size samples buf w m).2.2.2, 0 ≤ x ∧ x < size := by
  induction samples with
  | nil => intro buf w m _ _ _ x hx; simp [appendLoop] at hx
  | cons s rest ih =>
    intro buf w m hm hmw hw x hx
    rw [appendLoop] at hx
    dsimp only at hx
    by_cases hwrap : w + 1 = size
    · rw [if_pos hwrap] at hx
      simp only [List.mem_cons] at hx
      rcases hx with rfl | rfl | hx
      · omega
      · omega
      · exact ih _ (m + 1) 0 le_rfl (by omega) (by omega) x hx
    · rw [if_neg hwrap] at hx
      simp only [List.mem_cons] at hx
      rcases hx with rfl | rfl | hx
      · omega
      · omega
      · exact ih _ (w + 1) (m + 1) (by omega) (by omega) (by omega) x hx

/-- Final primary-pointer range of the append loop.  The invariant is
disjunctive: before the wrap the mirror trails the primary pointer by the
constant gap `G = 2*order` and at most `G` samples remain; after the wrap
the primary pointer sits in the top `G` slots and cannot reach the end
again. -/
theorem appendLoop_index_range (size G Omax : ℤ) (hGO : G ≤ 2 * Omax)
    (samples : List ℚ) :
    ∀ (buf : ℤ → ℚ) (w m : ℤ),
      ((m = w - G ∧ size - 2 * Omax ≤ w ∧ w < size ∧ (samples.length : ℤ) ≤ G) ∨
        (size - G ≤ w ∧ w + (samples.length : ℤ) < size)) →
      size - 2 * Omax ≤ (appendLoop size samples buf w m).2.1 ∧
        (appendLoop size samples buf w m).2.1 < size := by
  induction samples with
  | nil =>
    intro buf w m h
    simp only [appendLoop]
    rcases h with ⟨_, h1, h2, _⟩ | ⟨h1, h2⟩ <;> simp only [List.length_nil] at * <;> omega
  | cons s rest ih =>
    intro buf w m h
    rw [appendLoop]
    dsimp only
    simp only [List.length_cons] at h
    by_cases hwrap : w + 1 = size
    · rw [if_pos hwrap]
      refine ih _ (m + 1) 0 (Or.inr ?_)
      rcases h with ⟨hA1, hA2, hA3, hA4⟩ | ⟨hB1, hB2⟩
      · push_cast at hA4 ⊢
        omega
      · push_cast at hB2
        omega
    · rw [if_neg hwrap]
      refine ih _ (w + 1) (m + 1) ?_
      rcases h with ⟨hA1, hA2, hA3, hA4⟩ | ⟨hB1, hB2⟩
      · refine Or.inl ⟨by omega, by omega, by omega, ?_⟩
        push_cast at hA4 ⊢
        omega
      · refine Or.inr ⟨by omega, ?_⟩
        push_cast at hB2 ⊢
        omega

/-- C10, counterexample: the claimed cursor invariant fails for large
counts.  With order 1 = Omax, capacity 8 ≥ 4 × Omax and the freshly
initialized cursor 7 ∈ [size − 2·Omax, size), appending a valid 5-sample
block leaves the cursor at 4, outside the claimed interval
`[size − 2·order, size) = [6, 8)`. -/
theorem C10_counterexample :
    (delay_line_append_samples c10_filter c10_dl [0, 0, 0, 0, 0]).index = 4 ∧
      ¬ (c10_dl.size - 2 * (c10_filter.order : ℤ) ≤
          (delay_line_append_samples c10_filter c10_dl [0, 0, 0, 0, 0]).index) := by
  have h : (delay_line_append_samples c10_filter c10_dl [0, 0, 0, 0, 0]).index = 4 := by
    norm_num [delay_line_append_samples, appendLoop, c10_filter, c10_dl]
  refine ⟨h, ?_⟩
  rw [h]
  norm_num [c10_filter, c10_dl]

/-- C10, amended: for `size ≥ 4·Omax`, an entry cursor in
`[size − 2·Omax, size)` and any filter order in `[1, Omax]`,
`delay_line_append_samples` stores only to offsets in `[0, size)` — for
any positive count — and, whenever the block length is at most `2·order`,
it leaves the cursor in `[size − 2·Omax, size)` again, so this invariant
is preserved across any sequence of appends, including across order
changes. -/
theorem C10_append_preserves_bounds (Omax : ℕ) (f : fir_filter) (dl : delay_line)
    (samples : List ℚ) (hord : 0 < f.order) (hOmax : f.order ≤ Omax)
    (hsize : 4 * (Omax : ℤ) ≤ dl.size)
    (hidx : dl.size - 2 * (Omax : ℤ) ≤ dl.index ∧ dl.index < dl.size) :
    (∀ x ∈ append_write_offsets f dl samples, 0 ≤ x ∧ x < dl.size) ∧
    ((samples.length : ℤ) ≤ 2 * (f.order : ℤ) →
      dl.size - 2 * (Omax : ℤ) ≤ (delay_line_append_samples f dl samples).index ∧
        (delay_line_append_samples f dl samples).index < dl.size) := by
  have hcast : (1 : ℤ) ≤ (f.order : ℤ) := by exact_mod_cast hord
  have hcastO : (f.order : ℤ) ≤ (Omax : ℤ) := by exact_mod_cast hOmax
  constructor
  · exact appendLoop_writes_bounds dl.size samples dl.buffer dl.index
      (dl.index - 2 * (f.order : ℤ)) (by omega) (by omega) (by omega)
  · intro hcount
    exact appendLoop_index_range dl.size (2 * (f.order : ℤ)) (Omax : ℤ) (by omega)
      samples dl.buffer dl.index (dl.index - 2 * (f.order : ℤ))
      (Or.inl ⟨rfl, hidx.1, hidx.2, hcount⟩)

/-- Witness for `C10_append_preserves_bounds`: order 1 = Omax, capacity 8,
cursor 7, a two-sample block. -/
theorem C10_witness :
    (∀ x ∈ append_write_offsets c10_filter c10_dl [3, 4], 0 ≤ x ∧ x < c10_dl.size) ∧
    (((([3, 4] : List ℚ).length : ℤ) ≤ 2 * (c10_filter.order : ℤ)) →
      c10_dl.size - 2 * ((1 : ℕ) : ℤ) ≤
          (delay_line_append_samples c10_filter c10_dl [3, 4]).index ∧
        (delay_line_append_samples c10_filter c10_dl [3, 4]).index < c10_dl.size) :=
  C10_append_preserves_bounds 1 c10_filter c10_dl [3, 4] (by decide) (by decide)
    (by norm_num [c10_dl]) (by norm_num [c10_dl])

/-- C3: the contiguous window read by `fir_filter_apply` can differ from
the unbounded zero-prefilled reference buffer even though capacity
comfortably exceeds 4 × order and every batch is at most `order` samples.
With order 2, capacity 12, batches `[1,2]`, `[3]`, `[4,5]`, the window of
length `order + count = 4` read after the last append is `[0, 3, 4, 5]`
while the reference holds `[2, 3, 4, 5]`: the sample `2` was parked at
offsets 8 and 0 by the wrap of the first append, and neither copy lies in
the slice `[4, 8)` that the convolution reads.  (The mirror geometry
restores the claimed property only when `size = 4 * order` exactly, which
`init_fir_filters`' sizing `MAX_FILTER_ORDER * 4` guarantees only for the
maximum-order table entries.) -/
theorem C3_window_mismatch :
    window_read (append_batches c3_filter c3_dl0 [[1, 2], [3], [4, 5]])
        (c3_filter.order + 2) ≠
      reference_window [[1, 2], [3], [4, 5]] (c3_filter.order + 2) := by
  norm_num [window_read, reference_window, append_batches, delay_line_append_samples,
    appendLoop, writeAt, c3_filter, c3_dl0, List.range_succ, List.getD]

/-- Appending one sample: it becomes the most recent reference sample. -/
theorem refNth_append_last (past : List ℚ) (s : ℚ) : refNth (past ++ [s]) 1 = s := by
  unfold refNth
  rw [if_pos (by simp)]
  simp

/-- Appending one sample shifts the older reference samples by one. -/
theorem refNth_append_shift (past : List ℚ) (s : ℚ) (k : ℕ) (hk : 2 ≤ k) :
    refNth (past ++ [s]) k = refNth past (k - 1) := by
  unfold refNth
  rcases le_or_lt k (past.length + 1) with h | h
  · rw [if_pos (by simpa using h), if_pos (by omega)]
    rw [List.getD_append _ _ _ _ (by simp; omega)]
    congr 1
    simp
    omega
  · rw [if_neg (by simp; omega), if_neg (by omega)]

/-- One iteration of the append loop preserves `delay_inv` when the
capacity is exactly `4 * d`: the sample is stored at the cursor and at the
mirror offset `-2d`, and the cursor steps forward, wrapping from `4d` to
`2d`. -/
theorem step_inv (d : ℤ) (hd : 0 < d) (past : List ℚ) (s : ℚ) (buf : ℤ → ℚ) (w : ℤ)
    (h : delay_inv d past buf w) :
    delay_inv d (past ++ [s]) (writeAt (writeAt buf w s) (w - 2 * d) s)
      (if w + 1 = 4 * d then 2 * d else w + 1) := by
  obtain ⟨hw1, hw2, hcont, hdup⟩ := h
  have hcont' : ∀ k : ℕ, 1 ≤ k → (k : ℤ) ≤ 2 * d →
      writeAt (writeAt buf w s) (w - 2 * d) s
          ((if w + 1 = 4 * d then 2 * d else w + 1) - (k : ℤ)) =
        refNth (past ++ [s]) k := by
    intro k hk1 hk2
    by_cases hk : k = 1
    · subst hk
      rw [refNth_append_last]
      by_cases hwrap : w + 1 = 4 * d
      · rw [if_pos hwrap]
        have hx : 2 * d - ((1 : ℕ) : ℤ) = w - 2 * d := by push_cast; omega
        rw [hx]
        unfold writeAt
        rw [if_pos rfl]
      · rw [if_neg hwrap]
        have hx : w + 1 - ((1 : ℕ) : ℤ) = w := by push_cast; omega
        rw [hx]
        unfold writeAt
        rw [if_neg (by omega), if_pos rfl]
    · have hk2' : 2 ≤ k := by omega
      rw [refNth_append_shift past s k hk2']
      by_cases hwrap : w + 1 = 4 * d
      · rw [if_pos hwrap]
        have hne1 : 2 * d - (k : ℤ) ≠ w - 2 * d := by omega
        have hne2 : 2 * d - (k : ℤ) ≠ w := by omega
        unfold writeAt
        rw [if_neg hne1, if_neg hne2]
        have hx : 2 * d - (k : ℤ) + 2 * d = w - ((k - 1 : ℕ) : ℤ) := by push_cast [Nat.cast_sub (by omega : 1 ≤ k)]; omega
        rw [hdup (2 * d - (k : ℤ)) (by omega) (by omega), hx]
        exact hcont (k - 1) (by omega) (by omega)
      · rw [if_neg hwrap]
        have hne1 : w + 1 - (k : ℤ) ≠ w - 2 * d := by omega
        have hne2 : w + 1 - (k : ℤ) ≠ w := by omega
        unfold writeAt
        rw [if_neg hne1, if_neg hne2]
        have hx : w + 1 - (k : ℤ) = w - ((k - 1 : ℕ) : ℤ) := by push_cast [Nat.cast_sub (by omega : 1 ≤ k)]; omega
        rw [hx]
        exact hcont (k - 1) (by omega) (by omega)
  have hdup' : ∀ x : ℤ, 0 ≤ x → x < 2 * d →
      writeAt (writeAt buf w s) (w - 2 * d) s x =
        writeAt (writeAt buf w s) (w - 2 * d) s (x + 2 * d) := by
    intro x hx1 hx2
    by_cases hx : x = w - 2 * d
    · unfold writeAt
      rw [if_pos hx, if_neg (by omega), if_pos (by omega)]
    · unfold writeAt
      rw [if_neg hx, if_neg (by omega), if_neg (by omega), if_neg (by omega)]
      exact hdup x hx1 hx2
  by_cases hwrap : w + 1 = 4 * d
  · rw [if_pos hwrap] at hcont' ⊢
    exact ⟨by omega, by omega, hcont', hdup'⟩
  · rw [if_neg hwrap] at hcont' ⊢
    exact ⟨by omega, by omega, hcont', hdup'⟩

/-- The append loop preserves `delay_inv` for capacity exactly `4 * d`,
with the appended batch joining the reference stream.  The mirror pointer
of `delay_line_append_samples` enters as `w - 2d` and this relation is
re-established after the in-loop wrap (`w` jumps to `2d`, the mirror to
`0`), which is what keeps the two stores `2d` apart throughout. -/
theorem appendLoop_preserves_inv (d : ℤ) (hd : 0 < d) (batch : List ℚ) :
    ∀ (past : List ℚ) (buf : ℤ → ℚ) (w : ℤ), delay_inv d past buf w →
      delay_inv d (past ++ batch)
        (appendLoop (4 * d) batch buf w (w - 2 * d)).1
        (appendLoop (4 * d) batch buf w (w - 2 * d)).2.1 := by
  induction batch with
  | nil =>
    intro past buf w h
    simpa [appendLoop] using h
  | cons s rest ih =>
    intro past buf w h
    have hstep := step_inv d hd past s buf w h
    rw [appendLoop]
    dsimp only
    by_cases hwrap : w + 1 = 4 * d
    · rw [if_pos hwrap]
      rw [if_pos hwrap] at hstep
      have e1 : w - 2 * d + 1 = 2 * d := by omega
      have e0 : appendLoop (4 * d) rest (writeAt (writeAt buf w s) (w - 2 * d) s)
            (w - 2 * d + 1) 0 =
          appendLoop (4 * d) rest (writeAt (writeAt buf w s) (w - 2 * d) s)
            (2 * d) (2 * d - 2 * d) := by
        rw [e1]
        norm_num
      rw [e0]
      have := ih (past ++ [s]) (writeAt (writeAt buf w s) (w - 2 * d) s) (2 * d) hstep
      simpa [List.append_assoc] using this
    · rw [if_neg hwrap]
      rw [if_neg hwrap] at hstep
      have e0 : appendLoop (4 * d) rest (writeAt (writeAt buf w s) (w - 2 * d) s)
            (w + 1) (w - 2 * d + 1) =
          appendLoop (4 * d) rest (writeAt (writeAt buf w s) (w - 2 * d) s)
            (w + 1) (w + 1 - 2 * d) := by
        congr 1
        omega
      rw [e0]
      have := ih (past ++ [s]) (writeAt (writeAt buf w s) (w - 2 * d) s) (w + 1) hstep
      simpa [List.append_assoc] using this

/-- Folding whole batches through `delay_line_append_samples` preserves
`delay_inv` (and the capacity) when the capacity is exactly `4 * order`. -/
theorem append_batches_inv (f : fir_filter) (hord : 0 < f.order) (batches : List (List ℚ)) :
    ∀ (dl : delay_line) (past : List ℚ), dl.size = 4 * (f.order : ℤ) →
      delay_inv (f.order : ℤ) past dl.buffer dl.index →
      delay_inv (f.order : ℤ) (past ++ batches.flatten)
          (append_batches f dl batches).buffer (append_batches f dl batches).index ∧
        (append_batches f dl batches).size = dl.size := by
  induction batches with
  | nil =>
    intro dl past hsize h
    simpa [append_batches] using h
  | cons b rest ih =>
    intro dl past hsize h
    have hd : (0 : ℤ) < (f.order : ℤ) := by exact_mod_cast hord
    have hb := appendLoop_preserves_inv (f.order : ℤ) hd b past dl.buffer dl.index h
    rw [← hsize] at hb
    have := ih (delay_line_append_samples f dl b) (past ++ b)
      (by simp [delay_line_append_samples, hsize]) (by simpa [delay_line_append_samples])
    rw [append_batches]
    refine ⟨?_, ?_⟩
    · have h1 := this.1
      rwa [List.append_assoc] at h1
    · rw [this.2]
      simp [delay_line_append_samples]

/-- From `delay_inv`, the slice of length `len ≤ 2 * d` ending at the
cursor reads back the most recent `len` reference samples. -/
theorem window_read_of_inv (d : ℤ) (past : List ℚ) (dl : delay_line) (len : ℕ)
    (hinv : delay_inv d past dl.buffer dl.index) (hlen : (len : ℤ) ≤ 2 * d) :
    window_read dl len = (List.range len).map fun k => refNth past (len - k) := by
  obtain ⟨hw1, hw2, hcont, hdup⟩ := hinv
  unfold window_read
  refine List.map_congr_left fun k hk => ?_
  have hk' : k < len := List.mem_range.mp hk
  have hx : dl.index - (len : ℤ) + (k : ℤ) = dl.index - ((len - k : ℕ) : ℤ) := by
    push_cast [Nat.cast_sub (le_of_lt hk')]
    omega
  rw [hx]
  exact hcont (len - k) (by omega) (by push_cast [Nat.cast_sub (le_of_lt hk')]; omega)

/-- `reference_window` is exactly the `refNth` view of the flattened
batches. -/
theorem reference_window_eq_refNth (batches : List (List ℚ)) (len : ℕ) :
    reference_window batches len =
      (List.range len).map fun k => refNth batches.flatten (len - k) := by
  unfold reference_window refNth
  refine List.map_congr_left fun k hk => ?_
  have hk' : k < len := List.mem_range.mp hk
  dsimp only
  by_cases h : (batches.flatten.length : ℤ) - (len : ℤ) + (k : ℤ) < 0
  · rw [if_pos h, if_neg (by omega)]
  · rw [if_neg h, if_pos (by omega)]
    congr 1
    omega

/-- Delay-line refinement at exact capacity: starting from a freshly
initialized delay line of size exactly `4 * order`, after any sequence of
appended batches every slice of length at most `2 * order` ending at the
write cursor — in particular the `order + count` window `fir_filter_apply`
reads whenever `count ≤ order` — is sample-for-sample identical to the
tail of the unbounded zero-prefilled reference buffer.  Together with
`C3_window_mismatch` this pins the failure boundary: the property holds
at `size = 4 * order` and can fail at larger capacities. -/
theorem append_batches_window_eq_reference (f : fir_filter) (hord : 0 < f.order)
    (batches : List (List ℚ)) (len : ℕ) (hlen : (len : ℤ) ≤ 2 * (f.order : ℤ)) :
    window_read (append_batches f
        { buffer := fun _ => 0, size := 4 * (f.order : ℤ),
          index := 4 * (f.order : ℤ) - 1 } batches) len =
      reference_window batches len := by
  have hd : (0 : ℤ) < (f.order : ℤ) := by exact_mod_cast hord
  have hinv0 : delay_inv (f.order : ℤ) []
      (fun _ => (0 : ℚ)) (4 * (f.order : ℤ) - 1) := by
    refine ⟨by omega, by omega, ?_, fun _ _ _ => rfl⟩
    intro k hk1 hk2
    unfold refNth
    rw [if_neg (by simp only [List.length_nil, Nat.le_zero]; omega)]
  have h := append_batches_inv f hord batches
    { buffer := fun _ => 0, size := 4 * (f.order : ℤ), index := 4 * (f.order : ℤ) - 1 }
    [] rfl hinv0
  rw [window_read_of_inv (f.order : ℤ) batches.flatten _ len (by simpa using h.1) hlen,
    reference_window_eq_refNth]

end SpeakerComp
